import Mathlib

/-!
Shallow embedding of the SourceScan verifier contract (src/src/lib.rs and its
data modules) in Lean 4, together with theorems settling the specification
claims.

Modelling conventions:
* `AccountId` is a plain `String` (NEAR account ids are strings; validity
  checking is host-side and out of scope).
* `near_sdk::collections::UnorderedMap` is an association list kept in
  insertion order: `insert` replaces in place for an existing key and appends
  otherwise; `remove` is a swap-remove (the last entry moves into the removed
  slot), exactly the behaviour of the keys vector backing the map.
* `near_sdk::collections::Vector<Comment>` is a `List Comment` (push = append).
* `HashSet<Vote>` is a `List Vote` whose membership is decided by the custom
  `Hash`/`PartialEq` of `Vote`, i.e. by `author_id` alone
  (src/src/contract_data/vote.rs lines 24-38); `take` removes and returns the
  element equal (by author) to the probe, `insert` adds only when absent.
* `u64` quantities are `Nat` with an explicit `% 2^64` where Rust wrapping
  arithmetic matters (`get_pages`).
* A Rust panic (`require!`, `panic!`, unwrap, division by zero) is
  `Except.error msg` carrying the panic message; since the NEAR runtime
  reverts state on panic, an erroring call yields no successor state.
-/

/-- Width bound of Rust u64 values. -/
def u64Mod : Nat := 2 ^ 64

abbrev AccountId := String

inductive VoteType where
  | Upvote : VoteType
  | Downvote : VoteType
deriving DecidableEq, Repr

/-- src/src/contract_data/vote.rs: `Vote { author_id, timestamp, vote_type }`.
Equality and hashing of the Rust type use only `author_id`; the list-based
set operations below implement exactly that notion of sameness. -/
structure Vote where
  author_id : AccountId
  timestamp : Nat
  vote_type : VoteType
deriving DecidableEq, Repr

/-- src/src/verified_contract (github.rs, reconstructed from its use sites in
lib.rs lines 70-77 and the tests): `Github { owner, repo, sha }`. -/
structure Github where
  owner : String
  repo : String
  sha : String
deriving DecidableEq, Repr

/-- Comment as constructed in lib.rs lines 177-183:
`Comment { id, author_id, timestamp, content, votes }`. -/
structure Comment where
  id : Nat
  author_id : AccountId
  timestamp : Nat
  content : String
  votes : List Vote
deriving DecidableEq, Repr

/-- src/src/verified_contract/mod.rs: `VerifiedContract`. -/
structure VerifiedContract where
  cid : String
  lang : String
  entry_point : String
  code_hash : String
  builder_image : String
  github : Option Github
  votes : List Vote
  comments : List Nat
deriving DecidableEq, Repr

/-- lib.rs lines 14-18: the contract state. -/
structure SourceScan where
  owner_id : AccountId
  contracts : List (AccountId × VerifiedContract)
  comments : List Comment
deriving DecidableEq, Repr

/-! ### UnorderedMap operations (association-list model) -/

/-- Model of `UnorderedMap::get`. -/
def um_get : List (AccountId × VerifiedContract) → AccountId → Option VerifiedContract
  | [], _ => none
  | (k', v) :: rest, k => if k' = k then some v else um_get rest k

/-- Model of `UnorderedMap::insert`: replace in place when the key exists, append
otherwise (the backing keys vector keeps insertion order). -/
def um_insert : List (AccountId × VerifiedContract) → AccountId → VerifiedContract →
    List (AccountId × VerifiedContract)
  | [], k, v => [(k, v)]
  | (k', v') :: rest, k, v =>
    if k' = k then (k, v) :: rest else (k', v') :: um_insert rest k v

/-- Model of `UnorderedMap::remove`: swap-remove of the key slot when present, no-op
when absent. -/
def um_remove (m : List (AccountId × VerifiedContract)) (k : AccountId) :
    List (AccountId × VerifiedContract) :=
  match m.findIdx? (fun p => p.1 = k) with
  | none => m
  | some i =>
    match m.getLast? with
    | none => m
    | some last => (m.set i last).dropLast

/-! ### HashSet<Vote> operations (author-keyed, per the custom Hash/PartialEq) -/

/-- Model of `HashSet::take(&v)`: remove and return the element equal to `v`
(equality by `author_id` only). -/
def hsTake : List Vote → Vote → Option Vote × List Vote
  | [], _ => (none, [])
  | w :: rest, v =>
    if w.author_id = v.author_id then (some w, rest)
    else
      let p := hsTake rest v
      (p.1, w :: p.2)

/-- Membership by the Vote equality (author only). -/
def hsContains : List Vote → Vote → Bool
  | [], _ => false
  | w :: rest, v => decide (w.author_id = v.author_id) || hsContains rest v

/-- Model of `HashSet::insert`: add only when no equal (same-author) element exists. -/
def hsInsert (votes : List Vote) (v : Vote) : List Vote :=
  if hsContains votes v then votes else votes ++ [v]

/-! ### String normalization used by search (lib.rs line 101) -/

/-- Lowercasing of a character list (`str::to_lowercase`; identical on the
ASCII account ids this contract handles). -/
def lowerChars (l : List Char) : List Char := l.map Char.toLower

/-- Fuel-driven scan behind `removeAll`; every step consumes one list element
and one fuel unit, so fuel equal to the list length always suffices. -/
def removeAllFuel (pat : List Char) : Nat → List Char → List Char
  | _, [] => []
  | 0, l => l
  | fuel + 1, c :: rest =>
    if pat ≠ [] ∧ pat.isPrefixOf (c :: rest) then
      removeAllFuel pat fuel (rest.drop (pat.length - 1))
    else
      c :: removeAllFuel pat fuel rest

/-- Model of `str::replace(pat, "")` for a nonempty pattern: delete every
non-overlapping occurrence of `pat`, scanning left to right. -/
def removeAll (pat l : List Char) : List Char :=
  removeAllFuel pat l.length l

/-- Model of `str::contains(needle)`: `needle` occurs as a contiguous substring. -/
def containsSub (pat : List Char) : List Char → Bool
  | [] => decide (pat = [])
  | c :: rest => pat.isPrefixOf (c :: rest) || containsSub pat rest

/-- The filter predicate of `search` (lib.rs line 101):
`k.to_lowercase().replace(".testnet", "").replace(".near", "").contains(key.to_lowercase())`. -/
def normMatches (key id : String) : Bool :=
  containsSub (lowerChars key.data)
    (removeAll ".near".data (removeAll ".testnet".data (lowerChars id.data)))

/-! ### Contract entry points -/

/-- Panic message of the owner guard (`require!` in lib.rs). -/
def onlyOwnerMsg : String := "Only owner can call this method"

/-- Panic message of `unwrap_or_else` on a missing contract. -/
def notFoundMsg (account_id : AccountId) : String :=
  "Contract " ++ account_id ++ " not found"

/-- Panic message of an unguarded u64 division by zero. -/
def divByZeroMsg : String := "attempt to divide by zero"

/-- Model of `SourceScan::new` (lib.rs lines 35-43): fresh state owned by the caller. -/
def SourceScan.new (caller : AccountId) : SourceScan :=
  { owner_id := caller, contracts := [], comments := [] }

/-- Model of `SourceScan::set_owner` (lib.rs lines 45-51). -/
def set_owner (s : SourceScan) (caller new_owner : AccountId) :
    Except String SourceScan :=
  if caller = s.owner_id then
    Except.ok { s with owner_id := new_owner }
  else
    Except.error onlyOwnerMsg

/-- Model of `SourceScan::set_contract` (lib.rs lines 57-82). -/
def set_contract (s : SourceScan) (caller account_id : AccountId)
    (cid code_hash lang entry_point builder_image : String)
    (github : Option Github) : Except String SourceScan :=
  if caller = s.owner_id then
    let existing := um_get s.contracts account_id
    let newRecord : VerifiedContract :=
      { cid := cid,
        lang := lang,
        entry_point := entry_point,
        code_hash := code_hash,
        builder_image := builder_image,
        votes := (existing.map VerifiedContract.votes).getD [],
        comments := (existing.map VerifiedContract.comments).getD [],
        github := (match github with
          | some g => some { owner := g.owner, repo := g.repo, sha := g.sha }
          | none => none) }
    Except.ok { s with contracts := um_insert s.contracts account_id newRecord }
  else
    Except.error onlyOwnerMsg

/-- Model of `SourceScan::purge_contract` (lib.rs lines 84-90). -/
def purge_contract (s : SourceScan) (caller account_id : AccountId) :
    Except String SourceScan :=
  if caller = s.owner_id then
    Except.ok { s with contracts := um_remove s.contracts account_id }
  else
    Except.error onlyOwnerMsg

/-- Model of `SourceScan::get_contract` (lib.rs lines 92-94). -/
def get_contract (s : SourceScan) (account_id : AccountId) :
    Option VerifiedContract :=
  um_get s.contracts account_id

/-- Model of `SourceScan::get_pages` (lib.rs lines 128-130): `(len + limit - 1) / limit`
in wrapping u64 arithmetic; division by zero panics. -/
def get_pages (len limit : Nat) : Except String Nat :=
  if limit = 0 then Except.error divByZeroMsg
  else Except.ok ((len + limit - 1) % u64Mod / limit)

/-- The filtered iteration inside `search` (lib.rs lines 99-104). -/
def searchFiltered (s : SourceScan) (key : String) :
    List (AccountId × VerifiedContract) :=
  s.contracts.filter (fun p => normMatches key p.1)

/-- Model of `SourceScan::search` (lib.rs lines 96-114). -/
def search (s : SourceScan) (key : String) (from_index limit : Nat) :
    Except String (List (AccountId × VerifiedContract) × Nat) :=
  match get_pages (searchFiltered s key).length limit with
  | Except.error e => Except.error e
  | Except.ok pages =>
    Except.ok (((searchFiltered s key).drop from_index).take limit, pages)

/-- Model of `SourceScan::get_contracts` (lib.rs lines 116-126). -/
def get_contracts (s : SourceScan) (from_index limit : Nat) :
    Except String (List (AccountId × VerifiedContract) × Nat) :=
  match get_pages s.contracts.length limit with
  | Except.error e => Except.error e
  | Except.ok pages =>
    Except.ok ((s.contracts.drop from_index).take limit, pages)

/-- The vote kind chosen from `is_upvote` (lib.rs lines 142-146). -/
def vtype (is_upvote : Bool) : VoteType :=
  if is_upvote then VoteType.Upvote else VoteType.Downvote

/-- Model of `SourceScan::add_vote` (lib.rs lines 132-165). Note: no owner guard. -/
def add_vote (s : SourceScan) (caller : AccountId) (ts : Nat)
    (account_id : AccountId) (is_upvote : Bool) : Except String SourceScan :=
  match um_get s.contracts account_id with
  | none => Except.error (notFoundMsg account_id)
  | some contract =>
    let vote_type := vtype is_upvote
    let new_vote : Vote :=
      { author_id := caller, timestamp := ts, vote_type := vote_type }
    let votes' :=
      match hsTake contract.votes new_vote with
      | (some existing, rest) =>
        hsInsert rest { existing with vote_type := vote_type, timestamp := ts }
      | (none, _) => hsInsert contract.votes new_vote
    let updated := { contract with votes := votes' }
    Except.ok { s with contracts := um_insert s.contracts account_id updated }

/-- Model of `SourceScan::add_comment` (lib.rs lines 167-189). Note: no owner guard. -/
def add_comment (s : SourceScan) (caller : AccountId) (ts : Nat)
    (account_id : AccountId) (content : String) : Except String SourceScan :=
  match um_get s.contracts account_id with
  | none => Except.error (notFoundMsg account_id)
  | some contract =>
    let new_comment : Comment :=
      { id := s.comments.length, author_id := caller, timestamp := ts,
        content := content, votes := [] }
    let updated := { contract with comments := contract.comments ++ [new_comment.id] }
    Except.ok { s with
      contracts := um_insert s.contracts account_id updated,
      comments := s.comments ++ [new_comment] }

/-- The fetch loop of `get_comments` (lib.rs lines 198-202):
`self.comments.get(comment_id).unwrap()` for each referenced id. -/
def fetchComments (log : List Comment) : List Nat → Except String (List Comment)
  | [] => Except.ok []
  | i :: rest =>
    match log[i]? with
    | none => Except.error "panicked at Option::unwrap on a None value"
    | some c =>
      match fetchComments log rest with
      | Except.error e => Except.error e
      | Except.ok cs => Except.ok (c :: cs)

/-- Model of `SourceScan::get_comments` (lib.rs lines 191-205). -/
def get_comments (s : SourceScan) (account_id : AccountId) :
    Except String (List Comment) :=
  match um_get s.contracts account_id with
  | none => Except.error (notFoundMsg account_id)
  | some contract => fetchComments s.comments contract.comments

/-- Sequencing of `add_vote` calls from one author against one account:
each pair is (block timestamp, is_upvote) of a call, applied in order. -/
def applyVotes (account_id a : AccountId) :
    SourceScan → List (Nat × Bool) → Except String SourceScan
  | s, [] => Except.ok s
  | s, (ts, up) :: rest =>
    match add_vote s a ts account_id up with
    | Except.error e => Except.error e
    | Except.ok s' => applyVotes account_id a s' rest

/-- Ceiling division specified independently of the source formula:
the quotient plus one exactly when the division leaves a remainder. -/
def ceilSpec (total limit : Nat) : Nat :=
  total / limit + (if total % limit = 0 then 0 else 1)

/-! ### Association-list lemmas -/

theorem um_get_insert_self (m : List (AccountId × VerifiedContract))
    (k : AccountId) (v : VerifiedContract) :
    um_get (um_insert m k v) k = some v := by
  induction m with
  | nil => simp [um_insert, um_get]
  | cons hd tl ih =>
    by_cases h : hd.1 = k
    · simp [um_insert, um_get, h]
    · simp [um_insert, um_get, h, ih]

theorem mem_um_insert {m : List (AccountId × VerifiedContract)}
    {k : AccountId} {v : VerifiedContract} {p : AccountId × VerifiedContract}
    (hp : p ∈ um_insert m k v) : p = (k, v) ∨ p ∈ m := by
  induction m with
  | nil => simpa [um_insert] using hp
  | cons hd tl ih =>
    obtain ⟨a, b⟩ := hd
    by_cases h : a = k
    · have e : um_insert ((a, b) :: tl) k v = (k, v) :: tl := by
        simp [um_insert, h]
      rw [e] at hp
      rcases List.mem_cons.mp hp with hp | hp
      · exact Or.inl hp
      · exact Or.inr (List.mem_cons_of_mem _ hp)
    · have e : um_insert ((a, b) :: tl) k v = (a, b) :: um_insert tl k v := by
        simp [um_insert, h]
      rw [e] at hp
      rcases List.mem_cons.mp hp with hp | hp
      · subst hp
        exact Or.inr (List.mem_cons_self _ _)
      · rcases ih hp with h' | h'
        · exact Or.inl h'
        · exact Or.inr (List.mem_cons_of_mem _ h')

theorem um_get_mem {m : List (AccountId × VerifiedContract)}
    {k : AccountId} {v : VerifiedContract} (h : um_get m k = some v) :
    (k, v) ∈ m := by
  induction m with
  | nil => simp [um_get] at h
  | cons hd tl ih =>
    obtain ⟨a, b⟩ := hd
    by_cases hk : a = k
    · subst hk
      simp only [um_get, if_pos rfl] at h
      injection h with h
      subst h
      exact List.mem_cons_self _ _
    · simp only [um_get, if_neg hk] at h
      exact List.mem_cons_of_mem _ (ih h)

theorem um_findIdx_none {m : List (AccountId × VerifiedContract)}
    {k : AccountId} (h : um_get m k = none) :
    m.findIdx? (fun p => p.1 = k) = none := by
  induction m with
  | nil => simp
  | cons hd tl ih =>
    by_cases hk : hd.1 = k
    · rw [um_get, if_pos hk] at h
      cases h
    · rw [um_get, if_neg hk] at h
      simp [List.findIdx?_cons, hk, ih h]

theorem um_remove_absent {m : List (AccountId × VerifiedContract)}
    {k : AccountId} (h : um_get m k = none) : um_remove m k = m := by
  unfold um_remove
  rw [um_findIdx_none h]

theorem mem_um_remove {m : List (AccountId × VerifiedContract)}
    {k : AccountId} {p : AccountId × VerifiedContract}
    (hp : p ∈ um_remove m k) : p ∈ m := by
  unfold um_remove at hp
  rcases hfind : m.findIdx? (fun p => p.1 = k) with _ | i
  · rw [hfind] at hp
    exact hp
  · rw [hfind] at hp
    rcases hlast : m.getLast? with _ | last
    · rw [hlast] at hp
      exact hp
    · rw [hlast] at hp
      have hp' : p ∈ m.set i last := (List.dropLast_sublist (m.set i last)).subset hp
      rcases List.mem_or_eq_of_mem_set hp' with h | h
      · exact h
      · subst h
        rcases List.mem_getLast?_eq_getLast (show p ∈ m.getLast? from hlast) with ⟨hne, hl⟩
        rw [hl]
        exact List.getLast_mem hne

/-! ### Ceiling division -/

theorem ceilSpec_eq_formula (total limit : Nat) (h : 0 < limit) :
    (total + limit - 1) / limit = ceilSpec total limit := by
  have hmod : total % limit < limit := Nat.mod_lt _ h
  have hdiv : limit * (total / limit) + total % limit = total :=
    Nat.div_add_mod total limit
  unfold ceilSpec
  rcases Nat.eq_zero_or_pos (total % limit) with hr | hr
  · have e : total + limit - 1 = limit * (total / limit) + (limit - 1) := by omega
    rw [e, Nat.mul_add_div h,
      Nat.div_eq_of_lt (show limit - 1 < limit by omega)]
    simp [hr]
  · have e : total + limit - 1 = limit * (total / limit + 1) + (total % limit - 1) := by
      rw [Nat.mul_succ]
      omega
    rw [e, Nat.mul_add_div h,
      Nat.div_eq_of_lt (show total % limit - 1 < limit by omega)]
    have hne : total % limit ≠ 0 := by omega
    simp [hne]

/-! ### Example states used by counterexamples and witnesses -/

/-- A registered record with the descriptive fields of the repository's
own test helper. -/
def exRecord : VerifiedContract :=
  { cid := "cid", lang := "lang", entry_point := "entry_point",
    code_hash := "code_hash", builder_image := "builder_image",
    github := none, votes := [], comments := [] }

/-- State owned by alice with one record registered for bob. -/
def exState : SourceScan :=
  { owner_id := "alice.near",
    contracts := [("bob.near", exRecord)],
    comments := [] }

/-- State `exState` after mallory (a non-owner) upvotes bob's record. -/
def exStateVoted : SourceScan :=
  { owner_id := "alice.near",
    contracts := [("bob.near",
      { exRecord with
          votes := [{ author_id := "mallory.near", timestamp := 7,
                      vote_type := VoteType.Upvote }] })],
    comments := [] }

/-- State with the two testnet accounts of the search test. -/
def exSearchState : SourceScan :=
  { owner_id := "alice.near",
    contracts := [("account1.testnet", exRecord), ("account2.testnet", exRecord)],
    comments := [] }

/-- C5, claim as stated is false: `get_pages` works in wrapping u64
arithmetic, so at `total = 2^64 - 1`, `limit = 2` the sum `total + limit - 1`
wraps to zero and the result is `0` instead of the ceiling `2^63`. -/
theorem c5_counterexample :
    get_pages (2 ^ 64 - 1) 2 = Except.ok 0 ∧
    ceilSpec (2 ^ 64 - 1) 2 = 2 ^ 63 ∧
    (0 : Nat) ≠ 2 ^ 63 := by
  refine ⟨rfl, rfl, by decide⟩

/-- C5 (amended): for every `total` and `limit > 0` whose sum stays within
u64 range, `get_pages total limit` returns the ceiling of `total / limit`;
in particular `get_pages 3 2 = 2`, `get_pages 4 2 = 2`, `get_pages 0 5 = 0`. -/
theorem c5_get_pages_ceil (total limit : Nat) (hl : 0 < limit)
    (hcap : total + limit ≤ 2 ^ 64) :
    get_pages total limit = Except.ok (ceilSpec total limit) ∧
    get_pages 3 2 = Except.ok 2 ∧
    get_pages 4 2 = Except.ok 2 ∧
    get_pages 0 5 = Except.ok 0 := by
  refine ⟨?_, rfl, rfl, rfl⟩
  unfold get_pages
  rw [if_neg (Nat.pos_iff_ne_zero.mp hl)]
  have hlt : total + limit - 1 < u64Mod := by
    unfold u64Mod
    omega
  rw [Nat.mod_eq_of_lt hlt, ceilSpec_eq_formula total limit hl]

/-- Witness for C5 (amended) at `total = 3`, `limit = 2`. -/
theorem c5_get_pages_ceil_witness :
    0 < 2 ∧ 3 + 2 ≤ 2 ^ 64 ∧ get_pages 3 2 = Except.ok (ceilSpec 3 2) :=
  ⟨by decide, by decide, (c5_get_pages_ceil 3 2 (by decide) (by decide)).1⟩

/-- C6, claim as stated is false: with `limit == 0` the call does abort, but
not through a validation step raising `InvalidArgument` — it reaches the
division in `get_pages` and dies with the divide-by-zero panic. -/
theorem c6_counterexample :
    search exState "a" 0 0 = Except.error "attempt to divide by zero" ∧
    get_contracts exState 0 0 = Except.error "attempt to divide by zero" ∧
    divByZeroMsg ≠ "InvalidArgument" := by
  refine ⟨rfl, rfl, by decide⟩

/-- C6 (amended): in every state, `search` and `get_contracts` with
`limit == 0` abort fatally with the unguarded division-by-zero panic from
`get_pages` and never return a page result. -/
theorem c6_zero_limit_aborts (s : SourceScan) (key : String) (f : Nat) :
    search s key f 0 = Except.error divByZeroMsg ∧
    get_contracts s f 0 = Except.error divByZeroMsg := by
  constructor
  · unfold search get_pages
    simp
  · unfold get_contracts get_pages
    simp

/-- C10: purging an absent account id as the owner succeeds and returns the
state unchanged (owner, record store and comment log all intact). -/
theorem c10_purge_absent (s : SourceScan) (caller id : AccountId)
    (hown : caller = s.owner_id) (habs : um_get s.contracts id = none) :
    purge_contract s caller id = Except.ok s := by
  unfold purge_contract
  rw [if_pos hown, um_remove_absent habs]

/-- Witness for C10: alice purges an unknown id from `exState`. -/
theorem c10_purge_absent_witness :
    "alice.near" = exState.owner_id ∧
    um_get exState.contracts "ghost.near" = none ∧
    purge_contract exState "alice.near" "ghost.near" = Except.ok exState :=
  ⟨rfl, rfl, c10_purge_absent exState "alice.near" "ghost.near" rfl rfl⟩

/-- C8: `add_vote` and `add_comment` on an account id that is not in the
store abort fatally with the `Contract ... not found` panic; the erroring
call produces no successor state, so owner, store and comment log are left
exactly as they were. -/
theorem c8_missing_target (s : SourceScan) (caller : AccountId) (ts : Nat)
    (id : AccountId) (up : Bool) (content : String)
    (habs : um_get s.contracts id = none) :
    add_vote s caller ts id up = Except.error (notFoundMsg id) ∧
    add_comment s caller ts id content = Except.error (notFoundMsg id) := by
  constructor
  · unfold add_vote
    rw [habs]
  · unfold add_comment
    rw [habs]

/-- Witness for C8: voting and commenting on an id absent from `exState`. -/
theorem c8_missing_target_witness :
    um_get exState.contracts "ghost.near" = none ∧
    add_vote exState "carol.near" 3 "ghost.near" true =
      Except.error (notFoundMsg "ghost.near") ∧
    add_comment exState "carol.near" 3 "ghost.near" "hi" =
      Except.error (notFoundMsg "ghost.near") := by
  refine ⟨rfl, ?_, ?_⟩
  · exact (c8_missing_target exState "carol.near" 3 "ghost.near" true "hi" rfl).1
  · exact (c8_missing_target exState "carol.near" 3 "ghost.near" true "hi" rfl).2

/-- C1, claim as stated is false: `add_vote` (and likewise `add_comment`)
carries no owner guard in the code, so a non-owner caller mutates the store
successfully instead of failing with Unauthorized. -/
theorem c1_counterexample :
    ("mallory.near" : AccountId) ≠ exState.owner_id ∧
    add_vote exState "mallory.near" 7 "bob.near" true = Except.ok exStateVoted ∧
    exStateVoted ≠ exState := by
  refine ⟨by decide, rfl, by decide⟩

/-- C1 (amended): the owner guard protects exactly `set_owner`,
`set_contract` and `purge_contract` — for those, a caller different from the
stored owner fails with the Unauthorized panic and, the call producing no
successor state, owner, contract store and comment log are unchanged;
`add_vote` and `add_comment` perform no owner check. -/
theorem c1_owner_guard (s : SourceScan) (caller x : AccountId)
    (cid ch lg ep bi : String) (gh : Option Github)
    (hne : caller ≠ s.owner_id) :
    set_owner s caller x = Except.error onlyOwnerMsg ∧
    set_contract s caller x cid ch lg ep bi gh = Except.error onlyOwnerMsg ∧
    purge_contract s caller x = Except.error onlyOwnerMsg := by
  refine ⟨?_, ?_, ?_⟩
  · unfold set_owner
    rw [if_neg hne]
  · unfold set_contract
    rw [if_neg hne]
  · unfold purge_contract
    rw [if_neg hne]

/-- Witness for C1 (amended): mallory cannot take ownership of `exState`. -/
theorem c1_owner_guard_witness :
    ("mallory.near" : AccountId) ≠ exState.owner_id ∧
    set_owner exState "mallory.near" "mallory.near" =
      Except.error onlyOwnerMsg :=
  ⟨by decide,
    (c1_owner_guard exState "mallory.near" "mallory.near" "c" "h" "l" "e" "b"
      none (by decide)).1⟩

/-- C3: `set_contract` by the owner replaces every descriptive field and
rebuilds `github` field-for-field, while `votes` and `comments` are carried
over from the prior record when the id was present and start empty when it
was absent; the owner and the global comment log are untouched. -/
theorem c3_set_contract_frame (s : SourceScan) (caller id : AccountId)
    (cid ch lg ep bi : String) (gh : Option Github)
    (hown : caller = s.owner_id) :
    ∃ s', set_contract s caller id cid ch lg ep bi gh = Except.ok s' ∧
      s'.owner_id = s.owner_id ∧
      s'.comments = s.comments ∧
      um_get s'.contracts id = some
        { cid := cid, lang := lg, entry_point := ep, code_hash := ch,
          builder_image := bi,
          github := gh.map (fun g =>
            { owner := g.owner, repo := g.repo, sha := g.sha }),
          votes := (match um_get s.contracts id with
                    | some c => c.votes
                    | none => []),
          comments := (match um_get s.contracts id with
                       | some c => c.comments
                       | none => []) } := by
  unfold set_contract
  rw [if_pos hown]
  refine ⟨_, rfl, rfl, rfl, ?_⟩
  rw [um_get_insert_self]
  rcases hex : um_get s.contracts id with _ | c <;>
    rcases gh with _ | g <;> simp [hex]

/-- Witness for C3 at `exState`: re-registering bob.near keeps his (empty)
engagement history and installs the new descriptive fields. -/
theorem c3_set_contract_frame_witness :
    "alice.near" = exState.owner_id ∧
    (∃ s', set_contract exState "alice.near" "bob.near" "c2" "h2" "l2" "e2"
        "b2" none = Except.ok s' ∧
      s'.owner_id = exState.owner_id ∧
      s'.comments = exState.comments ∧
      um_get s'.contracts "bob.near" = some
        { cid := "c2", lang := "l2", entry_point := "e2", code_hash := "h2",
          builder_image := "b2",
          github := (none : Option Github).map (fun g =>
            { owner := g.owner, repo := g.repo, sha := g.sha }),
          votes := (match um_get exState.contracts "bob.near" with
                    | some c => c.votes
                    | none => []),
          comments := (match um_get exState.contracts "bob.near" with
                       | some c => c.comments
                       | none => []) }) :=
  ⟨rfl, c3_set_contract_frame exState "alice.near" "bob.near" "c2" "h2" "l2"
    "e2" "b2" none rfl⟩

/-- Lemma: `containsSub` decides exactly contiguous-substring occurrence. -/
theorem containsSub_iff (pat l : List Char) :
    containsSub pat l = true ↔ ∃ xs ys, l = xs ++ pat ++ ys := by
  induction l with
  | nil =>
    simp only [containsSub, decide_eq_true_eq]
    constructor
    · intro h
      exact ⟨[], [], by simp [h]⟩
    · rintro ⟨xs, ys, h⟩
      rcases List.append_eq_nil.mp (List.append_eq_nil.mp h.symm).1 with ⟨_, hpat⟩
      exact hpat
  | cons c rest ih =>
    simp only [containsSub, Bool.or_eq_true, ih]
    constructor
    · rintro (hpre | ⟨xs, ys, h⟩)
      · rcases List.isPrefixOf_iff_prefix.mp hpre with ⟨t, ht⟩
        exact ⟨[], t, by simp [← ht]⟩
      · exact ⟨c :: xs, ys, by simp [h]⟩
    · rintro ⟨xs, ys, h⟩
      cases xs with
      | nil =>
        left
        apply List.isPrefixOf_iff_prefix.mpr
        exact ⟨ys, by simpa using h.symm⟩
      | cons x xs' =>
        right
        refine ⟨xs', ys, ?_⟩
        rw [List.append_assoc]
        exact (by simpa using h : c = x ∧ rest = xs' ++ (pat ++ ys)).2

/-- C9: the search filter keeps an entry exactly when the lowercased
identifier, with every occurrence of ".testnet" removed and then every
occurrence of ".near" removed, contains the lowercased key as a contiguous
substring. The concrete conjuncts pin the aspects the claim singles out:
removal happens mid-identifier, not only at a trailing suffix
(`"ab"` matches `"a.testnetb"`); the two removals happen in that fixed order
(deleting ".near" from `"a.tes.neartnet"` manufactures a ".testnet"
occurrence, which only matches because ".testnet" was removed first); and the
key itself is never stripped (`"a.testnet"` does not match `"a.testnet"`). -/
theorem c9_filter_characterization :
    (∀ (s : SourceScan) (key : String) (p : AccountId × VerifiedContract),
      p ∈ searchFiltered s key ↔
        p ∈ s.contracts ∧ normMatches key p.1 = true) ∧
    (∀ pat l : List Char,
      containsSub pat l = true ↔ ∃ xs ys, l = xs ++ pat ++ ys) ∧
    normMatches "ab" "a.testnetb" = true ∧
    normMatches ".testnet" "a.tes.neartnet" = true ∧
    normMatches "a.testnet" "a.testnet" = false := by
  refine ⟨?_, containsSub_iff, by decide, by decide, by decide⟩
  intro s key p
  unfold searchFiltered
  exact List.mem_filter

/-- C7: for `limit > 0` (and without u64 overflow, which a real store cannot
reach), `search` lowercases and suffix-strips through `normMatches`, filters
the full iteration, computes the page count as the ceiling of the
**filtered** result size over `limit`, and windows the filtered sequence by
`skip from_index` / `take limit`; concretely, searching "account1" against
stored "account1.testnet" and "account2.testnet" returns exactly one match
and one page. -/
theorem c7_search_windowing (s : SourceScan) (key : String) (f l : Nat)
    (hl : 0 < l) (hcap : s.contracts.length + l ≤ 2 ^ 64) :
    search s key f l =
      Except.ok (((searchFiltered s key).drop f).take l,
        ceilSpec (searchFiltered s key).length l) ∧
    search exSearchState "account1" 0 10 =
      Except.ok ([("account1.testnet", exRecord)], 1) := by
  constructor
  · have h1 : (searchFiltered s key).length ≤ s.contracts.length := by
      unfold searchFiltered
      exact List.length_filter_le _ _
    have hp : get_pages (searchFiltered s key).length l =
        Except.ok (ceilSpec (searchFiltered s key).length l) := by
      unfold get_pages
      rw [if_neg (Nat.pos_iff_ne_zero.mp hl)]
      rw [Nat.mod_eq_of_lt (show (searchFiltered s key).length + l - 1 < u64Mod by
        unfold u64Mod
        omega)]
      rw [ceilSpec_eq_formula _ _ hl]
    unfold search
    rw [hp]
  · rfl

/-- The state produced by a successful `add_vote`: the target record is
re-inserted with a new vote list, everything else untouched. -/
def insertVotes (s : SourceScan) (id : AccountId) (c : VerifiedContract)
    (vs : List Vote) : SourceScan :=
  { s with contracts := um_insert s.contracts id ({ c with votes := vs }) }

/-- Shape of a successful `add_vote`: the target record's vote set is
rewritten by the take-update-insert sequence of lib.rs lines 154-161. -/
theorem add_vote_ok {s : SourceScan} {id : AccountId} {c : VerifiedContract}
    (a : AccountId) (ts : Nat) (up : Bool)
    (hc : um_get s.contracts id = some c) :
    add_vote s a ts id up = Except.ok (insertVotes s id c
      (match hsTake c.votes
          { author_id := a, timestamp := ts, vote_type := vtype up } with
       | (some existing, rest) =>
         hsInsert rest
           { existing with vote_type := vtype up, timestamp := ts }
       | (none, _) =>
         hsInsert c.votes
           { author_id := a, timestamp := ts, vote_type := vtype up })) := by
  unfold add_vote
  rw [hc]
  rfl

/-- Lemma: `add_vote` against a record with no votes installs the single new vote. -/
theorem add_vote_from_empty {s : SourceScan} {id : AccountId}
    {c : VerifiedContract} (a : AccountId) (ts : Nat) (up : Bool)
    (hc : um_get s.contracts id = some c) (hv : c.votes = []) :
    add_vote s a ts id up = Except.ok (insertVotes s id c
      [{ author_id := a, timestamp := ts, vote_type := vtype up }]) := by
  rw [add_vote_ok a ts up hc, hv]
  simp [hsTake, hsInsert, hsContains]

/-- Lemma: `add_vote` against a record holding exactly one vote by the same author
replaces that vote's kind and timestamp in place. -/
theorem add_vote_from_single {s : SourceScan} {id : AccountId}
    {c : VerifiedContract} {a : AccountId} {t : Nat} {ty : VoteType}
    (ts : Nat) (up : Bool)
    (hc : um_get s.contracts id = some c)
    (hv : c.votes = [{ author_id := a, timestamp := t, vote_type := ty }]) :
    add_vote s a ts id up = Except.ok (insertVotes s id c
      [{ author_id := a, timestamp := ts, vote_type := vtype up }]) := by
  rw [add_vote_ok a ts up hc, hv]
  simp [hsTake, hsInsert, hsContains]

/-- The record re-inserted by `insertVotes` is found again with exactly the
new vote list. -/
theorem um_get_insertVotes (s : SourceScan) (id : AccountId)
    (c : VerifiedContract) (vs : List Vote) :
    um_get (insertVotes s id c vs).contracts id = some ({ c with votes := vs }) :=
  um_get_insert_self _ _ _

/-- Folding any further same-author calls over a single-vote record keeps the
set at one element carrying the last call's kind and timestamp. -/
theorem applyVotes_single_author (id a : AccountId) :
    ∀ (calls : List (Nat × Bool)) (s : SourceScan) (c : VerifiedContract)
      (t : Nat) (ty : VoteType) (last : Nat × Bool),
      um_get s.contracts id = some c →
      c.votes = [{ author_id := a, timestamp := t, vote_type := ty }] →
      calls.getLast? = some last →
      ∃ s' c', applyVotes id a s calls = Except.ok s' ∧
        um_get s'.contracts id = some c' ∧
        c'.votes = [{ author_id := a, timestamp := last.1,
                      vote_type := vtype last.2 }] := by
  intro calls
  induction calls with
  | nil =>
    intro s c t ty last hc hv hlast
    simp at hlast
  | cons hd tl ih =>
    intro s c t ty last hc hv hlast
    obtain ⟨ts, up⟩ := hd
    have hstep := add_vote_from_single ts up hc hv
    have e : applyVotes id a s ((ts, up) :: tl) =
        applyVotes id a (insertVotes s id c
          [{ author_id := a, timestamp := ts, vote_type := vtype up }]) tl := by
      simp only [applyVotes, hstep]
    cases tl with
    | nil =>
      have hl : last = (ts, up) := by
        simpa using hlast.symm
      subst hl
      refine ⟨_, _, ?_, um_get_insertVotes s id c _, rfl⟩
      rw [e]
      rfl
    | cons y tl' =>
      have hlast' : (y :: tl').getLast? = some last := by
        rw [← List.getLast?_cons_cons]
        exact hlast
      rcases ih (insertVotes s id c
          [{ author_id := a, timestamp := ts, vote_type := vtype up }])
        ({ c with votes :=
            [{ author_id := a, timestamp := ts, vote_type := vtype up }] })
        ts (vtype up) last (um_get_insertVotes s id c _) rfl hlast' with
        ⟨s', c', h1, h2, h3⟩
      refine ⟨s', c', ?_, h2, h3⟩
      rw [e]
      exact h1

/-- C2: vote equality and hashing key on the author only, so any nonempty
run of `add_vote` calls from one author against a record that starts with no
votes leaves exactly one stored vote, whose kind and timestamp are the last
call's. -/
theorem c2_revote_replaces (s : SourceScan) (id a : AccountId)
    (c : VerifiedContract) (calls : List (Nat × Bool)) (last : Nat × Bool)
    (hc : um_get s.contracts id = some c) (hv : c.votes = [])
    (hlast : calls.getLast? = some last) :
    ∃ s' c', applyVotes id a s calls = Except.ok s' ∧
      um_get s'.contracts id = some c' ∧
      c'.votes.length = 1 ∧
      c'.votes = [{ author_id := a, timestamp := last.1,
                    vote_type := vtype last.2 }] := by
  cases calls with
  | nil => simp at hlast
  | cons hd tl =>
    obtain ⟨ts, up⟩ := hd
    have hstep := add_vote_from_empty a ts up hc hv
    have e : applyVotes id a s ((ts, up) :: tl) =
        applyVotes id a (insertVotes s id c
          [{ author_id := a, timestamp := ts, vote_type := vtype up }]) tl := by
      simp only [applyVotes, hstep]
    cases tl with
    | nil =>
      have hl : last = (ts, up) := by
        simpa using hlast.symm
      subst hl
      refine ⟨_, _, ?_,
        um_get_insertVotes s id c
          [{ author_id := a, timestamp := ts, vote_type := vtype up }],
        rfl, rfl⟩
      rw [e]
      rfl
    | cons y tl' =>
      have hlast' : (y :: tl').getLast? = some last := by
        rw [← List.getLast?_cons_cons]
        exact hlast
      rcases applyVotes_single_author id a (y :: tl')
        (insertVotes s id c
          [{ author_id := a, timestamp := ts, vote_type := vtype up }])
        ({ c with votes :=
            [{ author_id := a, timestamp := ts, vote_type := vtype up }] })
        ts (vtype up) last (um_get_insertVotes s id c _) rfl hlast' with
        ⟨s', c', h1, h2, h3⟩
      refine ⟨s', c', ?_, h2, ?_, h3⟩
      · rw [e]
        exact h1
      · rw [h3]
        rfl

/-- Witness for C2: carol upvotes then downvotes bob's record; one vote
remains, a downvote stamped with the second call's timestamp. -/
theorem c2_revote_replaces_witness :
    um_get exState.contracts "bob.near" = some exRecord ∧
    exRecord.votes = [] ∧
    ([(11, true), (22, false)] : List (Nat × Bool)).getLast? =
      some (22, false) ∧
    (∃ s' c', applyVotes "bob.near" "carol.near" exState
        [(11, true), (22, false)] = Except.ok s' ∧
      um_get s'.contracts "bob.near" = some c' ∧
      c'.votes.length = 1 ∧
      c'.votes = [{ author_id := "carol.near", timestamp := 22,
                    vote_type := vtype false }]) :=
  ⟨rfl, rfl, rfl,
    c2_revote_replaces exState "bob.near" "carol.near" exRecord
      [(11, true), (22, false)] (22, false) rfl rfl rfl⟩

/-- States reachable from a fresh `SourceScan::new`, indexed by the number of
successful `add_comment` calls performed so far. Failing calls produce no
successor state (the runtime reverts on panic), so only `Except.ok` results
step. -/
inductive Reach : Nat → SourceScan → Prop where
  | init (caller : AccountId) : Reach 0 (SourceScan.new caller)
  | step_set_owner {K : Nat} {s s' : SourceScan} (caller x : AccountId) :
      Reach K s → set_owner s caller x = Except.ok s' → Reach K s'
  | step_set_contract {K : Nat} {s s' : SourceScan} (caller id : AccountId)
      (cid ch lg ep bi : String) (gh : Option Github) :
      Reach K s → set_contract s caller id cid ch lg ep bi gh = Except.ok s' →
      Reach K s'
  | step_purge {K : Nat} {s s' : SourceScan} (caller id : AccountId) :
      Reach K s → purge_contract s caller id = Except.ok s' → Reach K s'
  | step_add_vote {K : Nat} {s s' : SourceScan} (caller : AccountId) (ts : Nat)
      (id : AccountId) (up : Bool) :
      Reach K s → add_vote s caller ts id up = Except.ok s' → Reach K s'
  | step_add_comment {K : Nat} {s s' : SourceScan} (caller : AccountId)
      (ts : Nat) (id : AccountId) (content : String) :
      Reach K s → add_comment s caller ts id content = Except.ok s' →
      Reach (K + 1) s'

/-- Comment-log invariants: every log entry carries its own index as id, and
every record's comment list is a subsequence of the valid ids in append
order. -/
def LogInv (s : SourceScan) : Prop :=
  (∀ (i : Nat) (c : Comment), s.comments[i]? = some c → c.id = i) ∧
  (∀ p, p ∈ s.contracts →
    List.Sublist p.2.comments (List.range s.comments.length))

/-- Every reachable state has a comment log of length `K` satisfying
`LogInv`. -/
theorem reach_inv {K : Nat} {s : SourceScan} (h : Reach K s) :
    s.comments.length = K ∧ LogInv s := by
  induction h with
  | init caller =>
    refine ⟨rfl, ?_, ?_⟩
    · intro i c hc
      simp [SourceScan.new] at hc
    · intro p hp
      simp [SourceScan.new] at hp
  | @step_set_owner K0 s0 t0 caller x hr heq ih =>
    unfold set_owner at heq
    by_cases hca : caller = s0.owner_id
    · rw [if_pos hca] at heq
      injection heq with heq
      subst heq
      exact ih
    · rw [if_neg hca] at heq
      cases heq
  | @step_set_contract K0 s0 t0 caller id cid ch lg ep bi gh hr heq ih =>
    unfold set_contract at heq
    by_cases hca : caller = s0.owner_id
    · rw [if_pos hca] at heq
      injection heq with heq
      subst heq
      obtain ⟨hlen, hid, hsub⟩ := ih
      refine ⟨hlen, hid, ?_⟩
      intro p hp
      rcases mem_um_insert hp with hp | hp
      · subst hp
        rcases hex : um_get s0.contracts id with _ | c
        · simp [hex]
        · simp [hex]
          exact hsub (id, c) (um_get_mem hex)
      · exact hsub p hp
    · rw [if_neg hca] at heq
      cases heq
  | @step_purge K0 s0 t0 caller id hr heq ih =>
    unfold purge_contract at heq
    by_cases hca : caller = s0.owner_id
    · rw [if_pos hca] at heq
      injection heq with heq
      subst heq
      obtain ⟨hlen, hid, hsub⟩ := ih
      exact ⟨hlen, hid, fun p hp => hsub p (mem_um_remove hp)⟩
    · rw [if_neg hca] at heq
      cases heq
  | @step_add_vote K0 s0 t0 caller ts id up hr heq ih =>
    unfold add_vote at heq
    rcases hex : um_get s0.contracts id with _ | c
    · rw [hex] at heq
      cases heq
    · rw [hex] at heq
      injection heq with heq
      subst heq
      obtain ⟨hlen, hid, hsub⟩ := ih
      refine ⟨hlen, hid, ?_⟩
      intro p hp
      rcases mem_um_insert hp with hp | hp
      · subst hp
        exact hsub (id, c) (um_get_mem hex)
      · exact hsub p hp
  | @step_add_comment K0 s0 t0 caller ts id content hr heq ih =>
    unfold add_comment at heq
    rcases hex : um_get s0.contracts id with _ | c
    · rw [hex] at heq
      cases heq
    · rw [hex] at heq
      injection heq with heq
      subst heq
      obtain ⟨hlen, hid, hsub⟩ := ih
      refine ⟨?_, ?_, ?_⟩
      · simp [hlen]
      · intro i c' hi
        rw [List.getElem?_append] at hi
        by_cases hlt : i < s0.comments.length
        · rw [if_pos hlt] at hi
          exact hid i c' hi
        · rw [if_neg hlt] at hi
          rcases hj : i - s0.comments.length with _ | j
          · rw [hj] at hi
            simp at hi
            rw [← hi]
            simp only [not_lt] at hlt
            show s0.comments.length = i
            omega
          · rw [hj] at hi
            simp at hi
      · intro p hp
        have hran : List.range (s0.comments.length + 1) =
            List.range s0.comments.length ++ [s0.comments.length] :=
          List.range_succ s0.comments.length
        rcases mem_um_insert hp with hp | hp
        · subst hp
          simp only [List.length_append, List.length_cons, List.length_nil,
            Nat.zero_add]
          rw [hran]
          exact List.Sublist.append (hsub (id, c) (um_get_mem hex))
            (List.Sublist.refl _)
        · simp only [List.length_append, List.length_cons, List.length_nil,
            Nat.zero_add]
          rw [hran]
          exact List.Sublist.trans (hsub p hp)
            (List.sublist_append_left _ _)

/-- Fetching a list of in-range ids from a log whose entries carry their own
index succeeds and returns entries whose ids are exactly the requested list,
in order. -/
theorem fetchComments_ok (log : List Comment)
    (hid : ∀ (i : Nat) (c : Comment), log[i]? = some c → c.id = i) :
    ∀ ids : List Nat, (∀ i, i ∈ ids → i < log.length) →
      ∃ cs, fetchComments log ids = Except.ok cs ∧ cs.map Comment.id = ids := by
  intro ids
  induction ids with
  | nil =>
    intro _
    exact ⟨[], rfl, rfl⟩
  | cons i rest ih =>
    intro hb
    have hi : i < log.length := hb i (List.mem_cons_self _ _)
    obtain ⟨c, hc⟩ : ∃ c, log[i]? = some c :=
      ⟨_, List.getElem?_eq_getElem hi⟩
    rcases ih (fun j hj => hb j (List.mem_cons_of_mem _ hj)) with ⟨cs, hcs, hmap⟩
    refine ⟨c :: cs, ?_, ?_⟩
    · simp only [fetchComments, hc, hcs]
    · simp [hmap, hid i c hc]

/-- C4: in every reachable state after `K` successful `add_comment` calls,
the global log holds exactly the comments with ids `0, ..., K-1` in that
order, each fetchable; ids are assigned from the ever-growing log length and
are never reused (purging a record does not shrink the log); every record's
comment list is a subsequence of the valid ids in append order; and
`get_comments` on any stored record succeeds, returning its comments in that
order. -/
theorem c4_comment_log (K : Nat) (s : SourceScan) (h : Reach K s) :
    s.comments.length = K ∧
    (∀ (i : Nat) (c : Comment), s.comments[i]? = some c → c.id = i) ∧
    (∀ i : Nat, i < K → ∃ c, s.comments[i]? = some c ∧ c.id = i) ∧
    (∀ p, p ∈ s.contracts → List.Sublist p.2.comments (List.range K)) ∧
    (∀ (id : AccountId) (c : VerifiedContract), um_get s.contracts id = some c →
      ∃ cs, get_comments s id = Except.ok cs ∧ cs.map Comment.id = c.comments) := by
  obtain ⟨hlen, hid, hsub⟩ := reach_inv h
  refine ⟨hlen, hid, ?_, ?_, ?_⟩
  · intro i hi
    have hi' : i < s.comments.length := by
      rw [hlen]
      exact hi
    obtain ⟨c, hc⟩ : ∃ c, s.comments[i]? = some c :=
      ⟨_, List.getElem?_eq_getElem hi'⟩
    exact ⟨c, hc, hid i c hc⟩
  · intro p hp
    have := hsub p hp
    rwa [hlen] at this
  · intro id c hc
    have hb : ∀ j, j ∈ c.comments → j < s.comments.length := by
      intro j hj
      have hj' : j ∈ List.range s.comments.length :=
        (hsub (id, c) (um_get_mem hc)).subset hj
      simpa using hj'
    rcases fetchComments_ok s.comments hid c.comments hb with ⟨cs, h1, h2⟩
    refine ⟨cs, ?_, h2⟩
    unfold get_comments
    rw [hc]
    exact h1

/-- State `exState` after carol comments on bob's record: one log entry with id 0,
referenced by bob's record. -/
def exStateCommented : SourceScan :=
  { owner_id := "alice.near",
    contracts := [("bob.near", { exRecord with comments := [0] })],
    comments := [{ id := 0, author_id := "carol.near", timestamp := 5,
                   content := "hi", votes := [] }] }

/-- Witness for C4 on a concrete two-step history: register bob, then one
comment; `K = 1` and every conclusion is checked at that state. -/
theorem c4_comment_log_witness :
    exStateCommented.comments.length = 1 ∧
    (∃ c, exStateCommented.comments[0]? = some c ∧ c.id = 0) ∧
    (∃ cs, get_comments exStateCommented "bob.near" = Except.ok cs ∧
      cs.map Comment.id = [0]) := by
  have h := c4_comment_log 1 exStateCommented
    (Reach.step_add_comment "carol.near" 5 "bob.near" "hi"
      (Reach.step_set_contract "alice.near" "bob.near" "cid" "code_hash"
        "lang" "entry_point" "builder_image" none
        (Reach.init "alice.near") rfl) rfl)
  refine ⟨h.1, h.2.2.1 0 (by decide), ?_⟩
  have hc := h.2.2.2.2 "bob.near" ({ exRecord with comments := [0] }) rfl
  simpa using hc

/-- Witness for C7 at the repository's own search test scenario. -/
theorem c7_search_windowing_witness :
    0 < 10 ∧ exSearchState.contracts.length + 10 ≤ 2 ^ 64 ∧
    search exSearchState "account1" 0 10 =
      Except.ok (((searchFiltered exSearchState "account1").drop 0).take 10,
        ceilSpec (searchFiltered exSearchState "account1").length 10) :=
  ⟨by decide, by decide,
    (c7_search_windowing exSearchState "account1" 0 10 (by decide)
      (by decide)).1⟩
